import Mathlib

/-!
# Verification of the ratatui type-and-scroll program

Shallow embedding of `src/main.rs`: the domain `Event` type, the `AppState`
owned by the render/event loop (`draw_loop`), the key-code-to-event mapping
of the input poller (`poll_keys`), the line computation of `ui`, and the
error reporting of `main`.  Machine integers (`usize`) are modelled as `Nat`:
`saturating_sub` coincides with `Nat` subtraction, and `saturating_add 1`
is plain `Nat` addition (unbounded `Nat` addition never overflows, so the
saturation arm of `usize::saturating_add` is never taken in the model).
-/

namespace TypeAndScroll

/-- Rust `Ord::clamp` on `usize` (`x.clamp(lo, hi)`; requires `lo ≤ hi`). -/
def clampNat (x lo hi : Nat) : Nat := if x < lo then lo else if hi < x then hi else x

/-- The domain `Event` enum of `src/main.rs` (line 17). -/
inductive Event where
  | Key : Char → Event
  | ScrollDown : Event
  | ScrollUp : Event
  | LineBreak : Event
  | Exit : Event
deriving DecidableEq, Repr

/-- The `AppState` struct of `src/main.rs` (line 25).  The
`scroll_state : ScrollbarState` field is opaque display state owned by the
external rendering collaborator (ratatui) and is recomputed from
`line_count` before each draw, so it is not part of the embedded state. -/
structure AppState where
  scroll_position : Nat
  line_count : Nat
  text : String
deriving DecidableEq, Repr

/-- The state the loop seeds before its first iteration
(`src/main.rs` lines 65–67). -/
def seedState : AppState :=
  { scroll_position := 0, line_count := 1, text := "".append "Hello, World!\n" }

/-- One state transition of the `match maybe_event` block of `draw_loop`
(`src/main.rs` lines 75–102), for an event actually drained from the queue.
On `Exit` the loop sends the shutdown signal and breaks without touching the
state, so the state transition is the identity. -/
def stepEvent (s : AppState) : Event → AppState
  | .Exit => s
  | .Key c => { s with text := s.text.push c }
  | .LineBreak => { s with text := s.text.push '\n', line_count := s.line_count + 1 }
  | .ScrollDown =>
      { s with scroll_position := clampNat (s.scroll_position + 1) 0 s.line_count }
  | .ScrollUp =>
      { s with scroll_position := clampNat (s.scroll_position - 1) 0 s.line_count }

/-- One iteration's state change given `maybe_event : Option Event`: `none`
covers both a timer expiry and a closed queue (`stream.recv()` returning
`None`), which leave the state unchanged (`src/main.rs` line 101). -/
def stepOpt (s : AppState) : Option Event → AppState
  | some e => stepEvent s e
  | none => s

/-- `draw_loop` state evolution over a list of queue events: the loop breaks
at the first `Exit` (`src/main.rs` lines 76–79), so later events are never
processed. -/
def run (s : AppState) : List Event → AppState
  | [] => s
  | e :: rest => if e = .Exit then s else run (stepEvent s e) rest

/-- A state is reachable when some queue-event sequence produces it from the
seed state. -/
def Reachable (s : AppState) : Prop := ∃ evs, run seedState evs = s

/-- Rust `str::lines` on one `'\n'`-terminated segment: a line ending of
`"\r\n"` is split off as a unit, so the segment before the removed `'\n'`
loses one trailing carriage return. -/
def stripCR (l : String) : String := if l.endsWith "\r" then l.dropRight 1 else l

/-- `stripCR` on every `'\n'`-terminated segment of a `splitOn "\n"` result:
the last segment is the part after the final `'\n'` and is returned as is,
keeping any trailing `'\r'` (Rust: `"baz\r".lines()` yields `["baz\r"]`). -/
def rustLinesAux : List String → List String
  | [] => []
  | [last] => [last]
  | p :: rest => stripCR p :: rustLinesAux rest

/-- Rust `str::lines`: lines are split at `'\n'` or at the two-character
sequence `"\r\n"`; a final terminating line ending does not produce a
trailing empty line, and a trailing `'\r'` not followed by `'\n'` is kept
in the last line. -/
def rustLines (s : String) : List String :=
  if s.isEmpty then []
  else
    let parts := s.splitOn "\n"
    if s.endsWith "\n" then parts.dropLast.map stripCR
    else rustLinesAux parts

/-- The lines `ui` hands to the rendering collaborator
(`src/main.rs` lines 145–150): the text buffer's lines, skipping the first
`scroll_position` of them. -/
def drawCall (s : AppState) : List String :=
  (rustLines s.text).drop s.scroll_position

/-- Outcome of running `draw_loop` over a schedule of iteration inputs:
final state, the lines passed to each requested draw, in order, and whether
the loop sent the shutdown signal. -/
structure LoopResult where
  state : AppState
  draws : List (List String)
  shutdownSent : Bool
deriving DecidableEq, Repr

/-- `draw_loop` (`src/main.rs` lines 69–104) over a schedule: each entry is
what the `select!` produced (`some e` = queue yielded event `e`, `none` =
timer expiry or closed queue).  An `Exit` sends shutdown and breaks with no
further draw; every other entry mutates the state via the `match` and then
requests exactly one draw (`terminal.draw(|frame| ui(frame, &mut state))`). -/
def runTrace (s : AppState) : List (Option Event) → LoopResult
  | [] => { state := s, draws := [], shutdownSent := false }
  | oe :: rest =>
      if oe = some .Exit then { state := s, draws := [], shutdownSent := true }
      else
        let s' := stepOpt s oe
        let r := runTrace s' rest
        { state := r.state, draws := drawCall s' :: r.draws, shutdownSent := r.shutdownSent }

/-- Key codes distinguished by `poll_keys` (`src/main.rs` lines 123–128):
characters, the arrow keys, Enter, and a representative of every other
`crossterm::event::KeyCode`, which the wildcard arm ignores. -/
inductive KeyCode where
  | char : Char → KeyCode
  | up : KeyCode
  | down : KeyCode
  | enter : KeyCode
  | other : KeyCode
deriving DecidableEq, Repr

/-- `crossterm::event::KeyEventKind`. -/
inductive KeyEventKind where
  | press : KeyEventKind
  | release : KeyEventKind
  | repeat : KeyEventKind
deriving DecidableEq, Repr

/-- The key-code-to-event mapping of `poll_keys`
(`src/main.rs` lines 121–132): only key presses are translated, via the
fixed table; everything else yields no event. -/
def keyToEvent (kind : KeyEventKind) (code : KeyCode) : Option Event :=
  if kind = .press then
    match code with
    | .char c => if c = 'q' then some .Exit else some (.Key c)
    | .up => some .ScrollUp
    | .down => some .ScrollDown
    | .enter => some .LineBreak
    | .other => none
  else
    none

/-- Error reporting of `main` (`src/main.rs` lines 42–55): after both tasks
are joined and the terminal restored, an `Err` from either task is printed
to standard output and `main` returns `Ok(())`, so the process exit code is
0 regardless.  Result: (exit code, lines printed to stdout). -/
def mainOutcome (pollingResult drawingResult : Except String Unit) : Nat × List String :=
  let pollMsgs := match pollingResult with
    | .error e => ["Polling error: " ++ e]
    | .ok _ => []
  let drawMsgs := match drawingResult with
    | .error e => ["Drawing error: " ++ e]
    | .ok _ => []
  (0, pollMsgs ++ drawMsgs)

/-! ## Helper lemmas -/

theorem clampNat_zero (x hi : Nat) : clampNat x 0 hi = min x hi := by
  unfold clampNat
  split
  · omega
  · split <;> omega

theorem stepEvent_scroll_le (s : AppState) (h : s.scroll_position ≤ s.line_count)
    (e : Event) : (stepEvent s e).scroll_position ≤ (stepEvent s e).line_count := by
  cases e <;> simp [stepEvent, clampNat_zero] <;> omega

theorem run_scroll_le (evs : List Event) (s : AppState)
    (h : s.scroll_position ≤ s.line_count) :
    (run s evs).scroll_position ≤ (run s evs).line_count := by
  induction evs generalizing s with
  | nil => exact h
  | cons e rest ih =>
      rw [run]
      split
      · exact h
      · exact ih _ (stepEvent_scroll_le s h e)

theorem reachable_scroll_le (s : AppState) (h : Reachable s) :
    s.scroll_position ≤ s.line_count := by
  obtain ⟨evs, rfl⟩ := h
  exact run_scroll_le evs seedState (by simp [seedState])

theorem text_push_append (s : AppState) (c : Char) (cs : List Char) :
    s.text.push c ++ String.mk cs = s.text ++ String.mk (c :: cs) := by
  apply String.ext
  simp

/-! ## Claims -/

/-- C1: for every reachable `AppState` and every domain event the loop
processes, `scroll_position ≤ line_count` holds after the transition
(`0 ≤ scroll_position` is automatic for `usize`/`Nat`); a `ScrollUp` at
position 0 leaves it at 0, and a `ScrollDown` at position `line_count`
leaves it unchanged. -/
theorem scroll_position_bounded (s : AppState) (h : Reachable s) (e : Event) :
    (stepEvent s e).scroll_position ≤ (stepEvent s e).line_count ∧
    (s.scroll_position = 0 → (stepEvent s .ScrollUp).scroll_position = 0) ∧
    (s.scroll_position = s.line_count →
      (stepEvent s .ScrollDown).scroll_position = s.scroll_position) := by
  refine ⟨stepEvent_scroll_le s (reachable_scroll_le s h) e, ?_, ?_⟩
  · intro h0
    simp [stepEvent, clampNat_zero, h0]
  · intro htop
    simp [stepEvent, clampNat_zero, htop]

theorem scroll_position_bounded_witness :
    ((stepEvent seedState .ScrollUp).scroll_position ≤
        (stepEvent seedState .ScrollUp).line_count ∧
      (stepEvent seedState .ScrollUp).scroll_position = 0) ∧
    (stepEvent (run seedState [.ScrollDown]) .ScrollDown).scroll_position =
      (run seedState [.ScrollDown]).scroll_position := by
  refine ⟨⟨(scroll_position_bounded seedState ⟨[], rfl⟩ .ScrollUp).1,
    (scroll_position_bounded seedState ⟨[], rfl⟩ .ScrollUp).2.1 rfl⟩,
    (scroll_position_bounded (run seedState [.ScrollDown])
      ⟨[.ScrollDown], rfl⟩ .ScrollDown).2.2 (by decide)⟩

/-- C2: from the seed state, the event sequence
`[Character h, Character i, LineBreak, ScrollDown, ScrollDown]` yields
`text = "Hello, World!\nhi\n"`, `line_count = 2`, `scroll_position = 2`. -/
theorem end_to_end_typing :
    run seedState [Event.Key 'h', Event.Key 'i', Event.LineBreak,
        Event.ScrollDown, Event.ScrollDown] =
      { scroll_position := 2, line_count := 2, text := "Hello, World!\nhi\n" } := by
  decide

/-- C9: the text buffer is append-only: every single event transition of the
loop extends `text` on the right (so the old text is a prefix of the new). -/
theorem text_append_only (s : AppState) (e : Event) :
    ∃ t, (stepEvent s e).text = s.text ++ t := by
  cases e
  case Key c =>
    exact ⟨String.mk [c], by apply String.ext; simp [stepEvent]⟩
  case LineBreak =>
    exact ⟨String.mk ['\n'], by apply String.ext; simp [stepEvent]⟩
  all_goals exact ⟨"", by apply String.ext; simp [stepEvent]⟩

/-- Increment `line_count` receives from one event. -/
def lineCountInc (e : Event) : Nat := if e = Event.LineBreak then 1 else 0

theorem stepEvent_line_count (s : AppState) (e : Event) :
    (stepEvent s e).line_count = s.line_count + lineCountInc e := by
  cases e <;> simp [stepEvent, lineCountInc]

theorem run_line_count (evs : List Event) (s : AppState) :
    (run s evs).line_count =
      s.line_count +
        (evs.takeWhile (fun e => decide (e ≠ Event.Exit))).count Event.LineBreak := by
  induction evs generalizing s with
  | nil => simp [run]
  | cons e rest ih =>
      rw [run]
      split
      · subst e
        simp [List.takeWhile]
      · rename_i hne
        rw [ih (stepEvent s e), stepEvent_line_count]
        simp only [List.takeWhile]
        rw [decide_eq_true (by exact hne)]
        simp [List.count_cons, lineCountInc]
        by_cases h : e = Event.LineBreak
        · simp [h]
          omega
        · simp [h, lineCountInc]

/-- C10: `line_count` never decreases under any event; no event other than
`LineBreak` changes it, and `LineBreak` adds exactly 1; hence after any
event sequence from the seed state it equals 1 plus the number of
`LineBreak` events actually processed (those before the first `Exit`). -/
theorem line_count_law :
    (∀ s e, (stepEvent s e).line_count = s.line_count + lineCountInc e) ∧
    (∀ s e, s.line_count ≤ (stepEvent s e).line_count) ∧
    (∀ evs, (run seedState evs).line_count =
      1 + (evs.takeWhile (fun e => decide (e ≠ Event.Exit))).count Event.LineBreak) := by
  refine ⟨stepEvent_line_count, ?_, ?_⟩
  · intro s e
    rw [stepEvent_line_count]
    omega
  · intro evs
    rw [run_line_count]
    simp [seedState]

/-- C3: the input poller's key-code-to-event mapping is the fixed table:
on a key press, `q` maps to `Exit`, any other character `c` to
`Character(c)`, Up to `ScrollUp`, Down to `ScrollDown`, Enter to
`LineBreak`, and every other key code to no event; key releases (and
repeats) produce no event. -/
theorem key_mapping_table :
    keyToEvent .press (.char 'q') = some .Exit ∧
    (∀ c, c ≠ 'q' → keyToEvent .press (.char c) = some (.Key c)) ∧
    keyToEvent .press .up = some .ScrollUp ∧
    keyToEvent .press .down = some .ScrollDown ∧
    keyToEvent .press .enter = some .LineBreak ∧
    keyToEvent .press .other = none ∧
    (∀ code, keyToEvent .release code = none) := by
  refine ⟨rfl, ?_, rfl, rfl, rfl, rfl, ?_⟩
  · intro c hc
    simp [keyToEvent, hc]
  · intro code
    simp [keyToEvent]

theorem key_mapping_table_witness :
    keyToEvent .press (.char 'a') = some (.Key 'a') ∧
    keyToEvent .release (.char 'q') = none := by
  exact ⟨key_mapping_table.2.1 'a' (by decide), key_mapping_table.2.2.2.2.2.2 (.char 'q')⟩

/-- C4: when the loop receives `Exit` it sends the shutdown signal and exits
immediately: the state is returned unchanged, no draw is requested, and
later queue entries are never looked at; in particular feeding `[Exit]`
first leaves `text` equal to the seed text. -/
theorem exit_event_stops_loop :
    (∀ s rest, runTrace s (some Event.Exit :: rest) =
      { state := s, draws := [], shutdownSent := true }) ∧
    (runTrace seedState [some Event.Exit]).state.text = seedState.text := by
  refine ⟨fun s rest => by rw [runTrace]; simp, ?_⟩
  decide

/-- C5 counterexample: a polling error is reported on standard output, but
`main` still returns `Ok(())`: the exit code is 0, not non-zero as
claimed. -/
theorem task_error_exit_code_cex :
    (mainOutcome (.error "boom") (.ok ())).1 = 0 ∧
    (mainOutcome (.error "boom") (.ok ())).2 = ["Polling error: boom"] := by
  decide

/-- C5 amended: the process exits with code 0 on clean shutdown, and also
with code 0 when either task reports an error after both have stopped; in
the latter case an error message naming the failed unit (polling or
drawing) is printed to standard output. -/
theorem task_error_reporting (pr dr : Except String Unit) :
    (mainOutcome pr dr).1 = 0 ∧
    (∀ e, pr = .error e → ("Polling error: " ++ e) ∈ (mainOutcome pr dr).2) ∧
    (∀ e, dr = .error e → ("Drawing error: " ++ e) ∈ (mainOutcome pr dr).2) ∧
    (pr = .ok () → dr = .ok () → (mainOutcome pr dr).2 = []) := by
  refine ⟨rfl, ?_, ?_, ?_⟩
  · rintro e rfl
    cases dr <;> simp [mainOutcome]
  · rintro e rfl
    cases pr <;> simp [mainOutcome]
  · rintro rfl rfl
    rfl

theorem task_error_reporting_witness :
    (mainOutcome (Except.error "p") (Except.error "d")).1 = 0 ∧
    ("Polling error: " ++ "p") ∈ (mainOutcome (Except.error "p") (Except.error "d")).2 ∧
    ("Drawing error: " ++ "d") ∈ (mainOutcome (Except.error "p") (Except.error "d")).2 ∧
    (mainOutcome (Except.ok ()) (Except.ok ())).2 = [] := by
  exact ⟨(task_error_reporting _ _).1,
    (task_error_reporting _ _).2.1 "p" rfl,
    (task_error_reporting _ _).2.2.1 "d" rfl,
    (task_error_reporting (Except.ok ()) (Except.ok ())).2.2.2 rfl rfl⟩

/-- C6 counterexample: the loop's buffer is seeded with the greeting, so
after processing `[Character a]` the text is `"Hello, World!\na"`, not the
bare concatenation `"a"` of the characters received. -/
theorem char_concat_cex :
    (run seedState [Event.Key 'a']).text ≠ "a" ∧
    (run seedState [Event.Key 'a']).text = "Hello, World!\na" := by
  decide

/-- C6 amended: for every sequence consisting solely of `Character(c)`
events, the text buffer after processing equals the text buffer before
processing followed by the concatenation of the characters in the order
received. -/
theorem char_events_append (s : AppState) (cs : List Char) :
    (run s (cs.map Event.Key)).text = s.text ++ String.mk cs := by
  induction cs generalizing s with
  | nil =>
      apply String.ext
      simp [run]
  | cons c rest ih =>
      rw [List.map_cons, run]
      simp only [reduceCtorEq, if_false]
      rw [ih (stepEvent s (Event.Key c))]
      show (stepEvent s (Event.Key c)).text ++ String.mk rest = _
      rw [show (stepEvent s (Event.Key c)).text = s.text.push c from rfl]
      exact text_push_append s c rest

/-- State evolution over a schedule of iteration inputs, as `List.foldl`. -/
theorem runTrace_state (s : AppState) (sched : List (Option Event))
    (h : some Event.Exit ∉ sched) :
    (runTrace s sched).state = List.foldl stepOpt s sched := by
  induction sched generalizing s with
  | nil => rfl
  | cons oe rest ih =>
      simp only [List.mem_cons, not_or] at h
      rw [runTrace, if_neg (fun hh => h.1 hh.symm)]
      simp only [List.foldl_cons]
      exact ih (stepOpt s oe) h.2

/-- C7: on every iteration that does not exit (any non-`Exit` event, a timer
expiry, or a closed queue) the loop requests exactly one draw, and the lines
of the i-th draw are the lines of the text buffer after the i-th transition
with the first `scroll_position` of them skipped (`drawCall`). -/
theorem one_draw_per_iteration (s : AppState) (sched : List (Option Event))
    (h : some Event.Exit ∉ sched) :
    (runTrace s sched).draws.length = sched.length ∧
    (∀ i, i < sched.length →
      (runTrace s sched).draws[i]? =
        some (drawCall (List.foldl stepOpt s (sched.take (i + 1))))) := by
  induction sched generalizing s with
  | nil => exact ⟨rfl, fun i hi => absurd hi (by simp)⟩
  | cons oe rest ih =>
      simp only [List.mem_cons, not_or] at h
      have hne : ¬ oe = some Event.Exit := fun hh => h.1 hh.symm
      obtain ⟨ihlen, ihget⟩ := ih (stepOpt s oe) h.2
      rw [runTrace, if_neg hne]
      refine ⟨by simpa using ihlen, ?_⟩
      intro i hi
      match i with
      | 0 => simp
      | j + 1 =>
          simp only [List.getElem?_cons_succ, List.take_succ_cons, List.foldl_cons]
          exact ihget j (by simpa using hi)

theorem one_draw_per_iteration_witness :
    (runTrace seedState [some (Event.Key 'x'), none, some Event.ScrollDown]).draws.length = 3 ∧
    (runTrace seedState [some (Event.Key 'x'), none, some Event.ScrollDown]).draws[1]? =
      some (drawCall (List.foldl stepOpt seedState
        ([some (Event.Key 'x'), none, some Event.ScrollDown].take 2))) := by
  exact ⟨(one_draw_per_iteration seedState _ (by decide)).1,
    (one_draw_per_iteration seedState _ (by decide)).2 1 (by decide)⟩

/-! ## Bounded event queue (C8)

The Bounded Event Queue is tokio's `mpsc::channel(16)`
(`src/main.rs` line 37), whose implementation is not part of this
repository; it is modelled from the spec below. -/

/-- Modelled from the spec: the Bounded Event Queue is an "ordered,
capacity-limited (16 slots) single-consumer channel of Domain Events" with
"full-queue policy: producer suspends until space frees (backpressure, no
dropping)".  `remaining` is what the sole producer has yet to push,
`buffer` is the queue contents in order, `delivered` is what the sole
consumer has received, in order. -/
structure ChannelSys where
  remaining : List Event
  buffer : List Event
  delivered : List Event
deriving DecidableEq, Repr

/-- The queue capacity (`mpsc::channel(16)`, `src/main.rs` line 37). -/
def qCapacity : Nat := 16

/-- Modelled from the spec: one scheduler step.  `true` schedules the
producer, which pushes its next event only when the queue has a free slot
(a full queue suspends it: no-op, the event is only delayed); `false`
schedules the consumer, which pops the front event if any. -/
def chanStep (sys : ChannelSys) : Bool → ChannelSys
  | true =>
      match sys.remaining with
      | [] => sys
      | e :: rest =>
          if sys.buffer.length < qCapacity then
            { remaining := rest, buffer := sys.buffer ++ [e], delivered := sys.delivered }
          else
            sys
  | false =>
      match sys.buffer with
      | [] => sys
      | e :: rest =>
          { remaining := sys.remaining, buffer := rest, delivered := sys.delivered ++ [e] }

/-- Modelled from the spec: a whole execution is any interleaving of
producer and consumer steps. -/
def chanRun (sys : ChannelSys) (sched : List Bool) : ChannelSys :=
  sched.foldl chanStep sys

theorem chanStep_inv (sys : ChannelSys) (b : Bool) :
    (chanStep sys b).delivered ++ (chanStep sys b).buffer ++ (chanStep sys b).remaining =
      sys.delivered ++ sys.buffer ++ sys.remaining := by
  cases b
  · rw [chanStep]
    rcases sys with ⟨rem, buf, del⟩
    cases buf with
    | nil => rfl
    | cons e rest => simp
  · rw [chanStep]
    rcases sys with ⟨rem, buf, del⟩
    cases rem with
    | nil => rfl
    | cons e rest =>
        dsimp only
        split
        · simp
        · rfl

theorem chanRun_inv (sched : List Bool) (sys : ChannelSys) :
    (chanRun sys sched).delivered ++ (chanRun sys sched).buffer ++
        (chanRun sys sched).remaining =
      sys.delivered ++ sys.buffer ++ sys.remaining := by
  induction sched generalizing sys with
  | nil => rfl
  | cons b rest ih =>
      rw [chanRun, List.foldl_cons]
      rw [show List.foldl chanStep (chanStep sys b) rest = chanRun (chanStep sys b) rest from rfl]
      rw [ih (chanStep sys b), chanStep_inv]

/-- 20 distinct events, more than the 16-slot capacity. -/
def burst20 : List Event := "abcdefghijklmnopqrst".toList.map Event.Key

/-- A schedule that pushes 20 events faster than they are drained: 16 pushes
fill the queue, then each pop is followed by another push, then the rest is
drained. -/
def burstSched : List Bool :=
  List.replicate 16 true ++
    [false, true, false, true, false, true, false, true] ++ List.replicate 16 false

/-- C8: the modelled bounded queue (capacity 16) delivers events to the
consumer in production order under every interleaving: delivered, buffered
and still-to-push events always partition the produced sequence in order,
so the delivered sequence is a prefix of it (FIFO, no reordering, no
dropping; a full queue only delays the producer); in particular a burst of
20 events pushed faster than they are drained is delivered completely and
in order. -/
theorem queue_fifo_no_drop :
    (∀ evs sched,
      (chanRun ⟨evs, [], []⟩ sched).delivered ++ (chanRun ⟨evs, [], []⟩ sched).buffer ++
          (chanRun ⟨evs, [], []⟩ sched).remaining = evs ∧
      List.IsPrefix (chanRun ⟨evs, [], []⟩ sched).delivered evs) ∧
    (chanRun ⟨burst20, [], []⟩ burstSched).delivered = burst20 := by
  refine ⟨fun evs sched => ?_, by decide⟩
  have h := chanRun_inv sched ⟨evs, [], []⟩
  simp only [List.nil_append, List.append_nil] at h
  refine ⟨h, ?_⟩
  rw [List.append_assoc] at h
  exact ⟨_, h⟩

end TypeAndScroll
